import Mathlib

/-!
# Verification of the ark-whir sumcheck core against its specification

A shallow embedding of the sumcheck prover (`src/sumcheck/prover_single.rs`)
and the evaluation-table type (`src/poly_utils/evals.rs`) of the ark-whir
repository, together with proofs of the specified properties.

Machine representation: the Rust `Vec<F>` tables become Lean `List F`; the
generic ark-ff `Field` becomes a commutative ring with an inverse operation
(the inverse is used only by the spec-modelled quadratic interpolation).
Indexing `v[i]` becomes `List.getD v i 0`; every claim carries the bounds
that the Rust asserts enforce, so the default value is never consulted.
Rust panics (failed `assert!`) become `Option` where the claim is about the
failure itself (`EvaluationsList::new`), and preconditions elsewhere.

Types that live in files of the repository that are outside the provided
sources (`MultilinearPoint`, `CoefficientList`, `SumcheckPolynomial`,
`eq_poly`, `to_hypercube`, the coefficient-to-evaluation butterfly, the
64-bit prime field) are modelled from the specification; each such
definition says so in its doc comment.
-/

namespace ArkWhir

variable {F : Type} [CommRing F]

/-- Modelled from the spec: a `MultilinearPoint` is "an ordered sequence of
*n* field elements, representing a point in Fⁿ"; the Rust type
`MultilinearPoint<F>(pub Vec<F>)` is in a source file outside `src/`. -/
structure MultilinearPoint (F : Type) where
  coords : List F
deriving DecidableEq

/-- The number of coordinates of a point (`MultilinearPoint::n_variables`). -/
def MultilinearPoint.n_variables (p : MultilinearPoint F) : ℕ :=
  p.coords.length

/-- The most-significant-bit-first binary digits of `i`, `n` digits wide.
Coordinate `0` of a point corresponds to the top bit of a hypercube index,
matching the buffer split of `eval_eq` (low half first). -/
def bitsMSB : ℕ → ℕ → List Bool
  | 0, _ => []
  | n + 1, i => decide (2 ^ n ≤ i) :: bitsMSB n (i % 2 ^ n)

/-- The equality weight `eq_z(x) = Π_j (z_j x_j + (1 − z_j)(1 − x_j))` for a
binary point `x` given by its list of bits. -/
def eqWeight (z : List F) (x : List Bool) : F :=
  (List.zipWith (fun zj b => if b then zj else 1 - zj) z x).prod

/-- Modelled from the spec: `eq_poly(point, i)` is the "multilinear
indicator that equals 1 when x=z on {0,1}ⁿ, extended multilinearly",
evaluated at the hypercube point with index `i`; the Rust `eq_poly` lives in
`poly_utils` outside `src/`. -/
def eq_poly (point : MultilinearPoint F) (i : ℕ) : F :=
  eqWeight point.coords (bitsMSB point.coords.length i)

/-- Modelled from the spec: a point "may be identified with its binary index
when all coordinates are 0 or 1"; the Rust `MultilinearPoint::to_hypercube`
is in a source file outside `src/`. Returns `none` when some coordinate is
neither `0` nor `1`. -/
def hypercubeIndex [DecidableEq F] : List F → Option ℕ
  | [] => some 0
  | c :: rest =>
    match hypercubeIndex rest with
    | none => none
    | some r =>
      if c = 1 then some (2 ^ rest.length + r)
      else if c = 0 then some r
      else none

/-- `MultilinearPoint::to_hypercube`, via `hypercubeIndex`. -/
def MultilinearPoint.to_hypercube [DecidableEq F] (p : MultilinearPoint F) :
    Option ℕ :=
  hypercubeIndex p.coords

/-- The hypercube point of index `i` in `n` variables, coordinates in
`{0, 1}`, first coordinate the most significant bit. -/
def pointOfIndex (n i : ℕ) : List F :=
  (bitsMSB n i).map (fun b => if b then 1 else 0)

/-- Rust's `usize::is_power_of_two` (false at `0`). -/
def isPowerOfTwo (n : ℕ) : Bool :=
  n != 0 && 2 ^ Nat.log2 n == n

/-- `EvaluationsList` of `src/poly_utils/evals.rs`: the `2ⁿ` values of a
multilinear polynomial over the hypercube, plus the variable count. -/
structure EvaluationsList (F : Type) where
  evals : List F
  num_variables : ℕ
deriving DecidableEq

/-- `EvaluationsList::new`: asserts the length is a power of two (the panic
is modelled as `none`) and sets `num_variables = ilog2(len)`. -/
def EvaluationsList.new (v : List F) : Option (EvaluationsList F) :=
  if isPowerOfTwo v.length then some ⟨v, Nat.log2 v.length⟩ else none

/-- The unchecked constructor: the successful branch of
`EvaluationsList::new`, used where the surrounding code guarantees the
power-of-two length that the Rust assert checks at run time. -/
def EvaluationsList.ofList (v : List F) : EvaluationsList F :=
  ⟨v, Nat.log2 v.length⟩

/-- The `Index` impl of `EvaluationsList` (`self.evals[index]`). -/
def EvaluationsList.get (l : EvaluationsList F) (i : ℕ) : F :=
  l.evals.getD i 0

/-- `EvaluationsList::evaluate`: the fast path returns the stored entry at
the binary index when the point lies on the hypercube, otherwise the sum of
`eq_poly(point, i) * evals[i]` over the hypercube. -/
def EvaluationsList.evaluate [DecidableEq F] (l : EvaluationsList F)
    (point : MultilinearPoint F) : F :=
  match point.to_hypercube with
  | some i => l.evals.getD i 0
  | none =>
    ∑ i ∈ Finset.range (2 ^ l.num_variables), eq_poly point i * l.evals.getD i 0

/-- Modelled from the spec: a `CoefficientList` is "`2ⁿ` coefficients of a
multilinear polynomial in the monomial basis over {0,1}ⁿ-indexed monomials";
the Rust type lives in `poly_utils/coeffs.rs` outside `src/`. -/
structure CoefficientList (F : Type) where
  coeffs : List F

/-- Modelled from the spec: "*n* = ⌈log₂⌉ of the length". -/
def CoefficientList.num_variables (c : CoefficientList F) : ℕ :=
  Nat.log2 c.coeffs.length

/-- Monomial-basis evaluation by successive partial evaluation along each
variable: `p(z₁, zs) = p_lo(zs) + z₁ · p_hi(zs)` with the coefficient list
split at its midpoint (first variable = most significant index bit). -/
def evalCoeffs : List F → List F → F
  | c, [] => c.getD 0 0
  | c, z :: zs =>
    evalCoeffs (c.take (c.length / 2)) zs + z * evalCoeffs (c.drop (c.length / 2)) zs

/-- Modelled from the spec: evaluation of a `CoefficientList` at an
arbitrary point, "computed in O(2ⁿ) by successive partial evaluation along
each variable" in the monomial basis of the data model. -/
def CoefficientList.evaluate (c : CoefficientList F) (p : MultilinearPoint F) : F :=
  evalCoeffs c.coeffs p.coords

/-- Modelled from the spec: the coefficients-to-evaluations conversion "is
the in-place butterfly of length `2ⁿ`: for each variable axis, replace pairs
(a, b) with (a, a+b)"; recursively, the evaluations with the first variable
`0` come from the low coefficient half and those with it `1` from the sum of
the halves. The Rust `From<CoefficientList> for EvaluationsList` impl is
outside `src/`. -/
def evalForm : ℕ → List F → List F
  | 0, l => l
  | n + 1, l =>
    let lo := l.take (l.length / 2)
    let hi := l.drop (l.length / 2)
    evalForm n lo ++ evalForm n (List.zipWith (fun a b => a + b) lo hi)

/-- Modelled from the spec: a `SumcheckPolynomial` is "a univariate
polynomial of degree 2 per variable ..., represented by its evaluations at
{0, 1, 2} in each variable (here always one variable at a time, so three
scalars)"; the Rust type lives in `sumcheck/proof.rs` outside `src/`. -/
structure SumcheckPolynomial (F : Type) where
  evaluations : List F
  n_variables : ℕ
deriving DecidableEq

/-- `SumcheckPolynomial::new`. -/
def SumcheckPolynomial.new (evals : List F) (n : ℕ) : SumcheckPolynomial F :=
  ⟨evals, n⟩

/-- Modelled from the spec: "summation over {0,1}" of the one-variable
quadratic, i.e. its stored values at `X = 0` and `X = 1`. -/
def SumcheckPolynomial.sum_over_hypercube (g : SumcheckPolynomial F) : F :=
  g.evaluations.getD 0 0 + g.evaluations.getD 1 0

/-- Modelled from the spec: "evaluation at an arbitrary point" of the
one-variable quadratic stored by its values at {0, 1, 2}, via Lagrange
interpolation on those three nodes. -/
def SumcheckPolynomial.evaluate_at_point [Inv F] (g : SumcheckPolynomial F)
    (point : MultilinearPoint F) : F :=
  let r := point.coords.getD 0 0
  let e0 := g.evaluations.getD 0 0
  let e1 := g.evaluations.getD 1 0
  let e2 := g.evaluations.getD 2 0
  e0 * ((r - 1) * (r - 2)) * (2 : F)⁻¹ + e1 * (r * (2 - r)) +
    e2 * (r * (r - 1)) * (2 : F)⁻¹

/-- The sumcheck prover state of `src/sumcheck/prover_single.rs`. -/
structure SumcheckSingle (F : Type) where
  evaluation_of_p : EvaluationsList F
  evaluation_of_equality : EvaluationsList F
  num_variables : ℕ
  sum : F
deriving DecidableEq

/-- `SumcheckSingle::eval_eq` (the sequential variant): add `scalar` times
the equality weight of `eval` to each cell of `out`, by splitting `out` into
halves and recursing with scalars `scalar·(1−x)` (low) and `scalar·x`
(high). -/
def eval_eq : List F → List F → F → List F
  | [], out, scalar =>
    match out with
    | [] => []
    | o :: rest => (o + scalar) :: rest
  | x :: tail, out, scalar =>
    let lo := out.take (out.length / 2)
    let hi := out.drop (out.length / 2)
    let s1 := scalar * x
    let s0 := scalar - s1
    eval_eq tail lo s0 ++ eval_eq tail hi s1

/-- `SumcheckSingle::eval_eq` (the parallel variant): identical recursion,
except that above `PARALLEL_THRESHOLD = 10` remaining coordinates the two
recursive calls are forked with `rayon::join`. The children own the two
disjoint buffer halves produced by `split_at_mut` and `join` runs both
closures to completion, so the joined buffer is the concatenation of the two
children's results. -/
def eval_eq_par : List F → List F → F → List F
  | [], out, scalar =>
    match out with
    | [] => []
    | o :: rest => (o + scalar) :: rest
  | x :: tail, out, scalar =>
    let lo := out.take (out.length / 2)
    let hi := out.drop (out.length / 2)
    let s1 := scalar * x
    let s0 := scalar - s1
    if tail.length > 10 then
      eval_eq_par tail lo s0 ++ eval_eq_par tail hi s1
    else
      eval_eq_par tail lo s0 ++ eval_eq_par tail hi s1

/-- The loop of `SumcheckSingle::add_new_equality` over
`points.iter().zip(combination_randomness)`: fold `eval_eq` over the
operations, threading the equality buffer. -/
def applyEquality (ops : List (MultilinearPoint F × F)) (out : List F) : List F :=
  List.foldl (fun acc op => eval_eq op.1.coords acc op.2) out ops

/-- `SumcheckSingle::add_new_equality`: accumulate each `εᵢ·eq_{zᵢ}` into
the equality table and add `Σ εᵢ·evalᵢ` to the claimed sum. -/
def SumcheckSingle.add_new_equality (s : SumcheckSingle F)
    (points : List (MultilinearPoint F)) (combination_randomness : List F)
    (evaluations : List F) : SumcheckSingle F :=
  { s with
    evaluation_of_equality :=
      ⟨applyEquality (points.zip combination_randomness) s.evaluation_of_equality.evals,
        s.evaluation_of_equality.num_variables⟩
    sum := s.sum +
      ((combination_randomness.zip evaluations).map (fun pe => pe.1 * pe.2)).sum }

/-- `SumcheckSingle::new`: convert the coefficients to evaluation form,
start from the all-zero equality table and zero sum, then
`add_new_equality`. -/
def SumcheckSingle.new (coeffs : CoefficientList F)
    (points : List (MultilinearPoint F)) (combination_randomness : List F)
    (evaluations : List F) : SumcheckSingle F :=
  let num_variables := coeffs.num_variables
  let prover : SumcheckSingle F :=
    { evaluation_of_p := EvaluationsList.ofList (evalForm num_variables coeffs.coeffs)
      evaluation_of_equality :=
        EvaluationsList.ofList (List.replicate (2 ^ num_variables) (0 : F))
      num_variables := num_variables
      sum := 0 }
  prover.add_new_equality points combination_randomness evaluations

/-- The `coeff_0` accumulation of `compute_sumcheck_polynomial`:
`Σ_β p[2β]·w[2β]` over the index pairs. -/
def quadCoeff0 (s : SumcheckSingle F) : F :=
  ∑ β ∈ Finset.range (2 ^ (s.num_variables - 1)),
    s.evaluation_of_p.get (2 * β) * s.evaluation_of_equality.get (2 * β)

/-- The `coeff_2` accumulation of `compute_sumcheck_polynomial`:
`Σ_β (p[2β+1]−p[2β])·(w[2β+1]−w[2β])` over the index pairs. -/
def quadCoeff2 (s : SumcheckSingle F) : F :=
  ∑ β ∈ Finset.range (2 ^ (s.num_variables - 1)),
    (s.evaluation_of_p.get (2 * β + 1) - s.evaluation_of_p.get (2 * β)) *
      (s.evaluation_of_equality.get (2 * β + 1) - s.evaluation_of_equality.get (2 * β))

/-- `SumcheckSingle::compute_sumcheck_polynomial`: accumulate the quadratic
coefficients `a₀` and `a₂` over the index pairs `(2β, 2β+1)`, recover `a₁`
from the claimed sum, and emit the values at `X ∈ {0, 1, 2}`. -/
def SumcheckSingle.compute_sumcheck_polynomial (s : SumcheckSingle F) :
    SumcheckPolynomial F :=
  let two : F := 1 + 1
  let coeff_0 := quadCoeff0 s
  let coeff_2 := quadCoeff2 s
  let coeff_1 := s.sum - coeff_0 - coeff_0 - coeff_2
  SumcheckPolynomial.new
    [coeff_0, coeff_0 + coeff_1 + coeff_2, coeff_0 + two * coeff_1 + two * two * coeff_2] 1

/-- `SumcheckSingle::compress`: interpolate both tables along axis 0 at the
folding randomness, scale the equality table by the combination randomness,
set the sum to `σ·g(r)`, and drop one variable. -/
def SumcheckSingle.compress [Inv F] (s : SumcheckSingle F)
    (combination_randomness : F) (folding_randomness : MultilinearPoint F)
    (sumcheck_poly : SumcheckPolynomial F) : SumcheckSingle F :=
  let randomness := folding_randomness.coords.getD 0 0
  let randomness_bar := 1 - randomness
  let len := 2 ^ (s.num_variables - 1)
  let evaluations_of_p := (List.range len).map (fun β =>
    s.evaluation_of_p.get (2 * β) * randomness_bar +
      s.evaluation_of_p.get (2 * β + 1) * randomness)
  let evaluations_of_eq := (List.range len).map (fun β =>
    combination_randomness *
      (s.evaluation_of_equality.get (2 * β) * randomness_bar +
        s.evaluation_of_equality.get (2 * β + 1) * randomness))
  { evaluation_of_p := EvaluationsList.ofList evaluations_of_p
    evaluation_of_equality := EvaluationsList.ofList evaluations_of_eq
    num_variables := s.num_variables - 1
    sum := combination_randomness * sumcheck_poly.evaluate_at_point folding_randomness }

/-- The inner product `⟨p, w⟩` of the debug assertion of
`add_new_equality`: zip the two tables, multiply pointwise, sum. -/
def innerProd (a b : List F) : F :=
  (List.zipWith (fun x y => x * y) a b).sum

/-- Modelled from the spec: "a 64-bit prime field" (the concrete scenario
field `Field64` lives in `crypto/fields.rs` outside `src/`); the modulus
`2⁶⁴ − 2³² + 1` is a 64-bit prime. -/
def F64 : Type := ZMod 18446744069414584321

instance : CommRing F64 := inferInstanceAs (CommRing (ZMod 18446744069414584321))

instance : Inv F64 := inferInstanceAs (Inv (ZMod 18446744069414584321))

instance : DecidableEq F64 := inferInstanceAs (DecidableEq (ZMod 18446744069414584321))

/-- Scenario S1: the coefficient list `[1, 5, 10, 14]`. -/
def s1Coeffs : CoefficientList F64 := ⟨[1, 5, 10, 14]⟩

/-- Scenario S1: the evaluation point `(10, 11)`. -/
def s1Point : MultilinearPoint F64 := ⟨[10, 11]⟩

/-- Scenario S1: the claimed value `p(10, 11)`. -/
def s1Claimed : F64 := s1Coeffs.evaluate s1Point

/-- Scenario S1: the initial prover state. -/
def s1State : SumcheckSingle F64 :=
  SumcheckSingle.new s1Coeffs [s1Point] [1] [s1Claimed]

/-- Scenario S1: the first round polynomial. -/
def s1Poly1 : SumcheckPolynomial F64 :=
  s1State.compute_sumcheck_polynomial

/-- Scenario S1: the state after `compress` with combination randomness
`100101` and folding randomness `4999`. -/
def s1State2 : SumcheckSingle F64 :=
  s1State.compress 100101 ⟨[4999]⟩ s1Poly1

/-- Scenario S1: the second round polynomial. -/
def s1Poly2 : SumcheckPolynomial F64 :=
  s1State2.compute_sumcheck_polynomial

/-- A small concrete state over `ZMod 101` used to witness claim C1. -/
def exC1 : SumcheckSingle (ZMod 101) := ⟨⟨[2, 3], 1⟩, ⟨[5, 7], 1⟩, 1, 4⟩

/-- A small concrete state over `ZMod 101` used to witness claim C2. -/
def exC2 : SumcheckSingle (ZMod 101) := ⟨⟨[1, 9, 2, 6], 2⟩, ⟨[3, 4, 5, 8], 2⟩, 2, 10⟩

/-- A concrete operation sequence over `ZMod 101` used to witness claim C3. -/
def exC3ops : List (MultilinearPoint (ZMod 101) × ZMod 101) := [(⟨[4]⟩, 5), (⟨[6]⟩, 7)]

/-- The reversal of `exC3ops`, a permutation of it. -/
def exC3ops' : List (MultilinearPoint (ZMod 101) × ZMod 101) := [(⟨[6]⟩, 7), (⟨[4]⟩, 5)]

/-- A small concrete state over `ZMod 101` used to witness claim C4. -/
def exC4 : SumcheckSingle (ZMod 101) := ⟨⟨[2, 3], 1⟩, ⟨[5, 7], 1⟩, 1, 31⟩

/-- A concrete round polynomial over `ZMod 101` used to witness claim C4. -/
def exC4g : SumcheckPolynomial (ZMod 101) := ⟨[6, 9, 14], 1⟩

/-- A small concrete state over `ZMod 101` used to witness claim C7: its sum
`0` equals the inner product of `[2, 3]` with the zero table. -/
def exC7 : SumcheckSingle (ZMod 101) := ⟨⟨[2, 3], 1⟩, ⟨[0, 0], 1⟩, 1, 0⟩

/-- A concrete evaluation table over `ZMod 101` used to witness claim C8. -/
def exC8 : EvaluationsList (ZMod 101) := ⟨[4, 5, 6, 7], 2⟩

/-! ## Helper lemmas on list indexing -/

theorem getD_take {α : Type} (l : List α) (k i : ℕ) (d : α) (h : i < k) :
    (l.take k).getD i d = l.getD i d := by
  simp [List.getD_eq_getElem?_getD, List.getElem?_take_of_lt h]

theorem getD_drop {α : Type} (l : List α) (k i : ℕ) (d : α) :
    (l.drop k).getD i d = l.getD (k + i) d := by
  simp [List.getD_eq_getElem?_getD, List.getElem?_drop]

theorem getD_map_range {α : Type} (f : ℕ → α) (n i : ℕ) (d : α) (h : i < n) :
    ((List.range n).map f).getD i d = f i := by
  simp [List.getD_eq_getElem?_getD, List.getElem?_range h]

/-! ## `eval_eq`: length preservation and pointwise characterization -/

theorem eval_eq_length (z : List F) (out : List F) (s : F) :
    (eval_eq z out s).length = out.length := by
  induction z generalizing out s with
  | nil => cases out <;> simp [eval_eq]
  | cons x tail ih =>
    simp only [eval_eq, List.length_append, ih, List.length_take, List.length_drop]
    omega

theorem eqWeight_nil (x : List Bool) : eqWeight ([] : List F) x = 1 := by
  simp [eqWeight]

theorem eqWeight_cons (z : F) (zs : List F) (b : Bool) (bs : List Bool) :
    eqWeight (z :: zs) (b :: bs) = (if b then z else 1 - z) * eqWeight zs bs := by
  simp [eqWeight]

/-- `eval_eq z out s` adds `s` times the equality weight of `z` at the
hypercube index `i` to the cell `out[i]`, for every in-range `i`. -/
theorem eval_eq_getD (z : List F) (out : List F) (s : F)
    (hlen : out.length = 2 ^ z.length) (i : ℕ) (hi : i < 2 ^ z.length) :
    (eval_eq z out s).getD i 0 =
      out.getD i 0 + s * eqWeight z (bitsMSB z.length i) := by
  induction z generalizing out s i with
  | nil =>
    have h0 : i = 0 := by simp only [List.length_nil, pow_zero] at hi; omega
    have h1 : out.length = 1 := by simpa using hlen
    subst h0
    match out, h1 with
    | [o], _ => simp [eval_eq, bitsMSB, eqWeight_nil]
  | cons x tail ih =>
    have hk : (2 : ℕ) ^ (x :: tail).length = 2 ^ tail.length + 2 ^ tail.length := by
      simp [List.length_cons, pow_succ]; ring
    have hhalf : out.length / 2 = 2 ^ tail.length := by omega
    have hlo : (out.take (out.length / 2)).length = 2 ^ tail.length := by
      simp [List.length_take]; omega
    have hhi : (out.drop (out.length / 2)).length = 2 ^ tail.length := by
      simp [List.length_drop]; omega
    simp only [eval_eq]
    rcases lt_or_le i (2 ^ tail.length) with hcase | hcase
    · rw [List.getD_append _ _ _ _ (by rw [eval_eq_length, hlo]; exact hcase),
        ih _ _ hlo i hcase, getD_take _ _ _ _ (by omega)]
      have hbit : bitsMSB (x :: tail).length i =
          false :: bitsMSB tail.length i := by
        simp only [List.length_cons, bitsMSB, decide_eq_false (by omega : ¬ 2 ^ tail.length ≤ i),
          Nat.mod_eq_of_lt hcase]
      rw [hbit, eqWeight_cons]
      simp only [Bool.false_eq_true, if_false]
      ring
    · rw [List.getD_append_right _ _ _ _ (by rw [eval_eq_length, hlo]; exact hcase),
        eval_eq_length, hlo, ih _ _ hhi (i - 2 ^ tail.length) (by omega), getD_drop, hhalf]
      have hbit : bitsMSB (x :: tail).length i =
          true :: bitsMSB tail.length (i - 2 ^ tail.length) := by
        have hmod : i % 2 ^ tail.length = i - 2 ^ tail.length := by
          rw [Nat.mod_eq_sub_mod hcase, Nat.mod_eq_of_lt (by omega)]
        simp only [List.length_cons, bitsMSB, decide_eq_true_eq, hmod,
          decide_eq_true (by omega : 2 ^ tail.length ≤ i)]
      rw [hbit, eqWeight_cons]
      have : 2 ^ tail.length + (i - 2 ^ tail.length) = i := by omega
      rw [this]
      simp only [if_true]
      ring

/-! ## `applyEquality`: folding `eval_eq` over a sequence of operations -/

theorem applyEquality_nil (out : List F) : applyEquality [] out = out := rfl

theorem applyEquality_cons (op : MultilinearPoint F × F)
    (ops : List (MultilinearPoint F × F)) (out : List F) :
    applyEquality (op :: ops) out = applyEquality ops (eval_eq op.1.coords out op.2) := rfl

theorem applyEquality_length (ops : List (MultilinearPoint F × F)) (out : List F) :
    (applyEquality ops out).length = out.length := by
  induction ops generalizing out with
  | nil => rfl
  | cons op ops ih => rw [applyEquality_cons, ih, eval_eq_length]

/-- After a sequence of `eval_eq` accumulations the table cell at `i` holds
its initial value plus the sum of `εⱼ · eq_{zⱼ}(i)` over the operations. -/
theorem applyEquality_getD (n : ℕ) (ops : List (MultilinearPoint F × F)) (out : List F)
    (hlen : out.length = 2 ^ n) (hops : ∀ op ∈ ops, op.1.coords.length = n)
    (i : ℕ) (hi : i < 2 ^ n) :
    (applyEquality ops out).getD i 0 =
      out.getD i 0 +
        (ops.map (fun op => op.2 * eqWeight op.1.coords (bitsMSB n i))).sum := by
  induction ops generalizing out with
  | nil => simp [applyEquality_nil]
  | cons op ops ih =>
    have hop : op.1.coords.length = n := hops op (List.mem_cons_self op ops)
    rw [applyEquality_cons,
      ih (eval_eq op.1.coords out op.2) (by rw [eval_eq_length]; exact hlen)
        (fun o ho => hops o (List.mem_cons_of_mem op ho)),
      eval_eq_getD op.1.coords out op.2 (by rw [hop]; exact hlen) i (by rw [hop]; exact hi),
      hop]
    simp only [List.map_cons, List.sum_cons]
    ring

/-- The table produced by a sequence of operations is invariant under
permuting the sequence. -/
theorem applyEquality_perm (n : ℕ) (ops ops' : List (MultilinearPoint F × F))
    (out : List F) (hlen : out.length = 2 ^ n)
    (hops : ∀ op ∈ ops, op.1.coords.length = n) (hperm : ops.Perm ops') :
    applyEquality ops' out = applyEquality ops out := by
  have hops' : ∀ op ∈ ops', op.1.coords.length = n := fun op ho =>
    hops op (hperm.mem_iff.mpr ho)
  apply List.ext_getElem?
  intro j
  rcases lt_or_le j (2 ^ n) with hj | hj
  · have hl1 : j < (applyEquality ops' out).length := by
      rw [applyEquality_length, hlen]; exact hj
    have hl2 : j < (applyEquality ops out).length := by
      rw [applyEquality_length, hlen]; exact hj
    rw [List.getElem?_eq_getElem hl1, List.getElem?_eq_getElem hl2]
    have e1 : (applyEquality ops' out)[j] = (applyEquality ops' out).getD j 0 :=
      (List.getD_eq_getElem _ _ hl1).symm
    have e2 : (applyEquality ops out)[j] = (applyEquality ops out).getD j 0 :=
      (List.getD_eq_getElem _ _ hl2).symm
    rw [e1, e2, applyEquality_getD n ops' out hlen hops' j hj,
      applyEquality_getD n ops out hlen hops j hj,
      (hperm.map (fun op => op.2 * eqWeight op.1.coords (bitsMSB n j))).sum_eq]
  · rw [List.getElem?_eq_none (by rw [applyEquality_length, hlen]; exact hj),
      List.getElem?_eq_none (by rw [applyEquality_length, hlen]; exact hj)]

/-! ## Sum bridges between list sums and `Finset.range` sums -/

theorem innerProd_eq_sum (a b : List F) (n : ℕ) (ha : a.length = n) (hb : b.length = n) :
    innerProd a b = ∑ i ∈ Finset.range n, a.getD i 0 * b.getD i 0 := by
  induction n generalizing a b with
  | zero =>
    rw [List.length_eq_zero] at ha hb
    subst ha; subst hb
    simp [innerProd]
  | succ n ih =>
    match a, b, ha, hb with
    | x :: a', y :: b', ha, hb =>
      rw [Finset.sum_range_succ']
      simp only [List.getD_cons_succ, List.getD_cons_zero]
      rw [← ih a' b' (by simpa using ha) (by simpa using hb)]
      simp [innerProd]
      ring

theorem map_sum_getD {α : Type} (l : List α) (f : α → F) (d : α) :
    (l.map f).sum = ∑ j ∈ Finset.range l.length, f (l.getD j d) := by
  induction l with
  | nil => simp
  | cons x l ih =>
    rw [List.map_cons, List.sum_cons, List.length_cons, Finset.sum_range_succ']
    simp only [List.getD_cons_succ, List.getD_cons_zero, ih]
    ring

theorem getD_zip {α β : Type} (a : List α) (b : List β) (j : ℕ) (da : α) (db : β)
    (hja : j < a.length) (hjb : j < b.length) :
    (a.zip b).getD j (da, db) = (a.getD j da, b.getD j db) := by
  have hz : j < (a.zip b).length := by rw [List.length_zip]; omega
  rw [List.getD_eq_getElem _ _ hz, List.getD_eq_getElem _ _ hja,
    List.getD_eq_getElem _ _ hjb]
  simp [List.getElem_zip]

/-! ## Correctness of the coefficient-to-evaluation butterfly -/

theorem evalForm_length (n : ℕ) (l : List F) (h : l.length = 2 ^ n) :
    (evalForm n l).length = 2 ^ n := by
  induction n generalizing l with
  | zero => simpa [evalForm] using h
  | succ n ih =>
    have h2 : (2 : ℕ) ^ (n + 1) = 2 ^ n + 2 ^ n := by ring
    have hhalf : l.length / 2 = 2 ^ n := by omega
    simp only [evalForm, List.length_append]
    rw [ih _ (by simp [List.length_take]; omega),
      ih _ (by simp [List.length_zipWith, List.length_take, List.length_drop]; omega)]
    omega

theorem evalCoeffs_zipAdd (zs : List F) (a b : List F) (h : a.length = b.length) :
    evalCoeffs (List.zipWith (fun x y => x + y) a b) zs =
      evalCoeffs a zs + evalCoeffs b zs := by
  induction zs generalizing a b with
  | nil =>
    match a, b, h with
    | [], [], _ => simp [evalCoeffs]
    | x :: a', y :: b', _ => simp [evalCoeffs]
  | cons z zs ih =>
    have hlen : (List.zipWith (fun x y => x + y) a b).length = a.length := by
      rw [List.length_zipWith]; omega
    simp only [evalCoeffs, hlen, List.take_zipWith, List.drop_zipWith]
    rw [ih _ _ (by simp [List.length_take]; omega),
      ih _ _ (by simp [List.length_drop]; omega)]
    have hb : b.length / 2 = a.length / 2 := by rw [h]
    rw [hb]
    ring

theorem pointOfIndex_succ (n i : ℕ) :
    (pointOfIndex (n + 1) i : List F) =
      (if 2 ^ n ≤ i then (1 : F) else 0) :: pointOfIndex n (i % 2 ^ n) := by
  simp only [pointOfIndex, bitsMSB, List.map_cons]
  by_cases hc : 2 ^ n ≤ i <;> simp [hc]

/-- The butterfly output at hypercube index `i` is the monomial-basis
evaluation of the coefficients at the binary point of index `i`. -/
theorem evalForm_getD (n : ℕ) (l : List F) (h : l.length = 2 ^ n) (i : ℕ)
    (hi : i < 2 ^ n) :
    (evalForm n l).getD i 0 = evalCoeffs l (pointOfIndex n i) := by
  induction n generalizing l i with
  | zero =>
    have h0 : i = 0 := by omega
    subst h0
    simp [evalForm, pointOfIndex, bitsMSB, evalCoeffs]
  | succ n ih =>
    have h2 : (2 : ℕ) ^ (n + 1) = 2 ^ n + 2 ^ n := by ring
    have hhalf : l.length / 2 = 2 ^ n := by omega
    have hlo : (l.take (l.length / 2)).length = 2 ^ n := by
      simp [List.length_take]; omega
    have hzip : (List.zipWith (fun a b => a + b) (l.take (l.length / 2))
        (l.drop (l.length / 2))).length = 2 ^ n := by
      simp [List.length_zipWith, List.length_take, List.length_drop]; omega
    simp only [evalForm]
    rw [pointOfIndex_succ]
    rcases lt_or_le i (2 ^ n) with hcase | hcase
    · rw [List.getD_append _ _ _ _ (by rw [evalForm_length _ _ hlo]; exact hcase),
        ih _ hlo i hcase]
      rw [if_neg (by omega), Nat.mod_eq_of_lt hcase]
      simp only [evalCoeffs, hhalf]
      ring
    · rw [List.getD_append_right _ _ _ _ (by rw [evalForm_length _ _ hlo]; exact hcase),
        evalForm_length _ _ hlo, ih _ hzip (i - 2 ^ n) (by omega),
        evalCoeffs_zipAdd _ _ _ (by simp [List.length_take, List.length_drop]; omega)]
      rw [if_pos hcase]
      have hmod : i % 2 ^ n = i - 2 ^ n := by
        rw [Nat.mod_eq_sub_mod hcase, Nat.mod_eq_of_lt (by omega)]
      rw [hmod]
      simp only [evalCoeffs, hhalf]
      ring

/-! ## The equality weight as an indicator on the hypercube -/

theorem hypercubeIndex_lt [DecidableEq F] (cs : List F) (i : ℕ)
    (h : hypercubeIndex cs = some i) : i < 2 ^ cs.length := by
  induction cs generalizing i with
  | nil =>
    simp only [hypercubeIndex, Option.some.injEq] at h
    subst h
    simp
  | cons c rest ih =>
    cases hr : hypercubeIndex rest with
    | none =>
      simp only [hypercubeIndex, hr] at h
      exact absurd h (by simp)
    | some r =>
      simp only [hypercubeIndex, hr] at h
      have hrlt := ih r hr
      have h2 : (2 : ℕ) ^ (c :: rest).length = 2 ^ rest.length + 2 ^ rest.length := by
        simp [List.length_cons, pow_succ]; ring
      by_cases hc1 : c = 1
      · rw [if_pos hc1] at h
        simp only [Option.some.injEq] at h
        omega
      · rw [if_neg hc1] at h
        by_cases hc0 : c = 0
        · rw [if_pos hc0] at h
          simp only [Option.some.injEq] at h
          omega
        · rw [if_neg hc0] at h
          exact absurd h (by simp)

/-- When the point lies on the hypercube with index `i`, its equality weight
is the indicator of `i`. -/
theorem eqWeight_indicator [DecidableEq F] (cs : List F) (i : ℕ)
    (h : hypercubeIndex cs = some i) (x : ℕ) (hx : x < 2 ^ cs.length) :
    eqWeight cs (bitsMSB cs.length x) = if x = i then 1 else 0 := by
  induction cs generalizing i x with
  | nil =>
    simp only [hypercubeIndex, Option.some.injEq] at h
    have h0 : x = 0 := by simpa using hx
    subst h0
    rw [if_pos h]
    simp [eqWeight, bitsMSB]
  | cons c rest ih =>
    cases hr : hypercubeIndex rest with
    | none =>
      simp only [hypercubeIndex, hr] at h
      exact absurd h (by simp)
    | some r =>
      simp only [hypercubeIndex, hr] at h
      have hrlt := hypercubeIndex_lt rest r hr
      have h2 : (2 : ℕ) ^ (c :: rest).length = 2 ^ rest.length + 2 ^ rest.length := by
        simp [List.length_cons, pow_succ]; ring
      have hbit : bitsMSB (c :: rest).length x =
          decide (2 ^ rest.length ≤ x) :: bitsMSB rest.length (x % 2 ^ rest.length) := by
        simp [List.length_cons, bitsMSB]
      rw [hbit, eqWeight_cons]
      by_cases hc1 : c = 1
      · rw [if_pos hc1] at h
        simp only [Option.some.injEq] at h
        subst hc1
        rcases lt_or_le x (2 ^ rest.length) with hcc | hcc
        · rw [decide_eq_false (by omega), if_neg (by omega : ¬ x = i)]
          simp only [Bool.false_eq_true, if_false]
          ring
        · have hmod : x % 2 ^ rest.length = x - 2 ^ rest.length := by
            rw [Nat.mod_eq_sub_mod hcc, Nat.mod_eq_of_lt (by omega)]
          rw [decide_eq_true hcc, hmod,
            ih r hr (x - 2 ^ rest.length) (by omega)]
          simp only [if_true, one_mul]
          by_cases hxi : x = i
          · rw [if_pos hxi, if_pos (by omega)]
          · rw [if_neg hxi, if_neg (by omega)]
      · rw [if_neg hc1] at h
        by_cases hc0 : c = 0
        · rw [if_pos hc0] at h
          simp only [Option.some.injEq] at h
          subst hc0
          rcases lt_or_le x (2 ^ rest.length) with hcc | hcc
          · rw [decide_eq_false (by omega), Nat.mod_eq_of_lt hcc,
              ih r hr x (by omega)]
            simp only [Bool.false_eq_true, if_false]
            rw [h]
            ring_nf
          · rw [decide_eq_true hcc, if_neg (by omega : ¬ x = i)]
            simp only [if_true]
            ring
        · rw [if_neg hc0] at h
          exact absurd h (by simp)

/-! ## The round-polynomial algebra -/

/-- The emitted quadratic's values at `X = 0` and `X = 1` add up to the
state's claimed sum, by the construction of the middle coefficient. -/
theorem compute_g01 (s : SumcheckSingle F) :
    (s.compute_sumcheck_polynomial).evaluations.getD 0 0 +
      (s.compute_sumcheck_polynomial).evaluations.getD 1 0 = s.sum := by
  simp only [SumcheckSingle.compute_sumcheck_polynomial, SumcheckPolynomial.new,
    List.getD_cons_zero, List.getD_cons_succ]
  ring

theorem getD_replicate_zero (m y : ℕ) :
    (List.replicate m (0 : F)).getD y 0 = 0 := by
  rw [List.getD_eq_getElem?_getD, List.getElem?_replicate]
  split <;> rfl

/-! ## The claims -/

/-- C3: `eval_eq(z, out, s)` adds `s·eq_z(x)` to `out[x]` for every
hypercube index `x` (first coordinate of `z` = most significant bit of
`x`); consequently, starting from the all-zero table, a sequence of
`add_new_equality((zᵢ, εᵢ))` operations leaves `Σᵢ εᵢ·eq_{zᵢ}(x)` in cell
`x`, independently of the order of the operations. -/
theorem claim_c3 (z : List F) (out : List F) (s : F) (i : ℕ)
    (n : ℕ) (ops ops' : List (MultilinearPoint F × F)) (y : ℕ)
    (hlen : out.length = 2 ^ z.length) (hi : i < 2 ^ z.length)
    (hops : ∀ op ∈ ops, op.1.coords.length = n) (hy : y < 2 ^ n)
    (hperm : ops.Perm ops') :
    (eval_eq z out s).getD i 0 =
      out.getD i 0 + s * eqWeight z (bitsMSB z.length i) ∧
    (applyEquality ops (List.replicate (2 ^ n) 0)).getD y 0 =
      (ops.map (fun op => op.2 * eqWeight op.1.coords (bitsMSB n y))).sum ∧
    applyEquality ops' (List.replicate (2 ^ n) 0) =
      applyEquality ops (List.replicate (2 ^ n) 0) := by
  refine ⟨eval_eq_getD z out s hlen i hi, ?_,
    applyEquality_perm n ops ops' _ (by simp) hops hperm⟩
  rw [applyEquality_getD n ops _ (by simp) hops y hy, getD_replicate_zero, zero_add]

/-- Witness for C3 on concrete inputs over `ZMod 101`: a two-coordinate
point for the `eval_eq` part, and a two-operation sequence with its
reversal for the accumulation parts. -/
theorem claim_c3_witness :
    ([(1 : ZMod 101), 2, 3, 4].length = 2 ^ ([(3 : ZMod 101), 5].length)) ∧
    2 < 2 ^ ([(3 : ZMod 101), 5].length) ∧
    (∀ op ∈ exC3ops, op.1.coords.length = 1) ∧
    1 < 2 ^ 1 ∧
    exC3ops.Perm exC3ops' ∧
    ((eval_eq [(3 : ZMod 101), 5] [1, 2, 3, 4] 2).getD 2 0 =
      ([(1 : ZMod 101), 2, 3, 4]).getD 2 0 +
        2 * eqWeight [(3 : ZMod 101), 5] (bitsMSB ([(3 : ZMod 101), 5]).length 2) ∧
    (applyEquality exC3ops (List.replicate (2 ^ 1) 0)).getD 1 0 =
      (exC3ops.map (fun op => op.2 * eqWeight op.1.coords (bitsMSB 1 1))).sum ∧
    applyEquality exC3ops' (List.replicate (2 ^ 1) 0) =
      applyEquality exC3ops (List.replicate (2 ^ 1) 0)) :=
  ⟨by decide, by decide, by decide, by decide, by decide,
    claim_c3 [3, 5] [1, 2, 3, 4] 2 2 1 exC3ops exC3ops' 1
      (by decide) (by decide) (by decide) (by decide) (by decide)⟩

/-- C4: `compress(σ, r, g)` on a state with `m ≥ 1` variables and a
one-variable folding point replaces both tables by their axis-0
interpolations at `r` (the equality table additionally scaled by `σ`), sets
the sum to `σ·g(r)`, and decrements the variable count. -/
theorem claim_c4 [Inv F] (s : SumcheckSingle F) (sigma : F)
    (r' : MultilinearPoint F) (g : SumcheckPolynomial F)
    (hf : r'.n_variables = 1) (hm : 1 ≤ s.num_variables) :
    (s.compress sigma r' g).evaluation_of_p.evals =
      (List.range (2 ^ (s.num_variables - 1))).map (fun β =>
        (1 - r'.coords.getD 0 0) * s.evaluation_of_p.get (2 * β) +
          r'.coords.getD 0 0 * s.evaluation_of_p.get (2 * β + 1)) ∧
    (s.compress sigma r' g).evaluation_of_equality.evals =
      (List.range (2 ^ (s.num_variables - 1))).map (fun β =>
        sigma * ((1 - r'.coords.getD 0 0) * s.evaluation_of_equality.get (2 * β) +
          r'.coords.getD 0 0 * s.evaluation_of_equality.get (2 * β + 1))) ∧
    (s.compress sigma r' g).sum = sigma * g.evaluate_at_point r' ∧
    (s.compress sigma r' g).num_variables = s.num_variables - 1 := by
  refine ⟨?_, ?_, rfl, rfl⟩
  · exact List.map_congr_left (fun β _ => by ring)
  · exact List.map_congr_left (fun β _ => by ring)

/-- Witness for C4 at a concrete one-variable state over `ZMod 101`. -/
theorem claim_c4_witness :
    (MultilinearPoint.n_variables (⟨[9]⟩ : MultilinearPoint (ZMod 101)) = 1) ∧
    1 ≤ exC4.num_variables ∧
    ((exC4.compress 13 ⟨[9]⟩ exC4g).evaluation_of_p.evals =
      (List.range (2 ^ (exC4.num_variables - 1))).map (fun β =>
        (1 - (⟨[9]⟩ : MultilinearPoint (ZMod 101)).coords.getD 0 0) *
            exC4.evaluation_of_p.get (2 * β) +
          (⟨[9]⟩ : MultilinearPoint (ZMod 101)).coords.getD 0 0 *
            exC4.evaluation_of_p.get (2 * β + 1)) ∧
    (exC4.compress 13 ⟨[9]⟩ exC4g).evaluation_of_equality.evals =
      (List.range (2 ^ (exC4.num_variables - 1))).map (fun β =>
        13 * ((1 - (⟨[9]⟩ : MultilinearPoint (ZMod 101)).coords.getD 0 0) *
            exC4.evaluation_of_equality.get (2 * β) +
          (⟨[9]⟩ : MultilinearPoint (ZMod 101)).coords.getD 0 0 *
            exC4.evaluation_of_equality.get (2 * β + 1))) ∧
    (exC4.compress 13 ⟨[9]⟩ exC4g).sum = 13 * exC4g.evaluate_at_point ⟨[9]⟩ ∧
    (exC4.compress 13 ⟨[9]⟩ exC4g).num_variables = exC4.num_variables - 1) :=
  ⟨by decide, by decide, claim_c4 exC4 13 ⟨[9]⟩ exC4g (by decide) (by decide)⟩

/-- C5: scenario S1 over the 64-bit prime field — the polynomial with
coefficients `[1, 5, 10, 14]`, point `(10, 11)`, combination scalar `1` and
claimed evaluation `p(10, 11)`: the first round polynomial sums to
`p(10, 11)` over `{0, 1}`, and after `compress` with combination randomness
`100101` and folding randomness `4999` the next round polynomial `g'`
satisfies `g'(0) + g'(1) = 100101·g(4999)`. -/
theorem claim_c5 :
    s1Poly1.sum_over_hypercube = s1Claimed ∧
    s1Poly2.sum_over_hypercube = 100101 * s1Poly1.evaluate_at_point ⟨[4999]⟩ := by
  constructor
  · have h1 : s1Poly1.evaluations.getD 0 0 + s1Poly1.evaluations.getD 1 0 =
        s1State.sum := compute_g01 s1State
    have hsum : s1State.sum = s1Claimed := by
      simp [s1State, SumcheckSingle.new, SumcheckSingle.add_new_equality]
    exact h1.trans hsum
  · have h2 : s1Poly2.evaluations.getD 0 0 + s1Poly2.evaluations.getD 1 0 =
        s1State2.sum := compute_g01 s1State2
    exact h2.trans rfl

/-- C8: `EvaluationsList::evaluate` with a `2ⁿ`-entry table and an
`n`-coordinate point returns the multilinear extension value
`Σ_x eq_point(x)·evals[x]`; in particular, when the point is on the
hypercube the fast path's stored entry agrees with that sum. -/
theorem claim_c8 [DecidableEq F] (l : EvaluationsList F)
    (point : MultilinearPoint F)
    (hlen : l.evals.length = 2 ^ l.num_variables)
    (hpt : point.coords.length = l.num_variables) :
    l.evaluate point =
      (∑ i ∈ Finset.range (2 ^ l.num_variables), eq_poly point i * l.evals.getD i 0) ∧
    (point.to_hypercube = none ∨
      l.evals.getD ((point.to_hypercube).getD 0) 0 =
        ∑ i ∈ Finset.range (2 ^ l.num_variables), eq_poly point i * l.evals.getD i 0) := by
  cases hcube : point.to_hypercube with
  | none =>
    constructor
    · simp [EvaluationsList.evaluate, hcube]
    · exact Or.inl rfl
  | some idx =>
    have hlt : idx < 2 ^ l.num_variables := by
      rw [← hpt]
      exact hypercubeIndex_lt point.coords idx hcube
    have hkey : (∑ i ∈ Finset.range (2 ^ l.num_variables),
        eq_poly point i * l.evals.getD i 0) = l.evals.getD idx 0 := by
      have hstep : ∀ i ∈ Finset.range (2 ^ l.num_variables),
          eq_poly point i * l.evals.getD i 0 =
            if i = idx then l.evals.getD i 0 else 0 := by
        intro i hi
        rw [Finset.mem_range] at hi
        rw [eq_poly, eqWeight_indicator point.coords idx hcube i (by rw [hpt]; exact hi)]
        split <;> simp
      rw [Finset.sum_congr rfl hstep, Finset.sum_ite_eq' (Finset.range (2 ^ l.num_variables))
        idx (fun i => l.evals.getD i 0), if_pos (Finset.mem_range.mpr hlt)]
    constructor
    · rw [EvaluationsList.evaluate, hcube]
      exact hkey.symm
    · exact Or.inr (by simpa using hkey.symm)

/-- Witness for C8 at a concrete two-variable table and the hypercube point
`(1, 0)` over `ZMod 101`. -/
theorem claim_c8_witness :
    exC8.evals.length = 2 ^ exC8.num_variables ∧
    (MultilinearPoint.coords (⟨[1, 0]⟩ : MultilinearPoint (ZMod 101))).length =
      exC8.num_variables ∧
    (exC8.evaluate ⟨[1, 0]⟩ =
      (∑ i ∈ Finset.range (2 ^ exC8.num_variables),
        eq_poly (⟨[1, 0]⟩ : MultilinearPoint (ZMod 101)) i * exC8.evals.getD i 0) ∧
    ((⟨[1, 0]⟩ : MultilinearPoint (ZMod 101)).to_hypercube = none ∨
      exC8.evals.getD (((⟨[1, 0]⟩ : MultilinearPoint (ZMod 101)).to_hypercube).getD 0) 0 =
        ∑ i ∈ Finset.range (2 ^ exC8.num_variables),
          eq_poly (⟨[1, 0]⟩ : MultilinearPoint (ZMod 101)) i * exC8.evals.getD i 0)) :=
  ⟨by decide, by decide, claim_c8 exC8 ⟨[1, 0]⟩ (by decide) (by decide)⟩

/-- C6: `SumcheckSingle::new` produces a state whose polynomial table is
the evaluation form of the coefficients (entry `i` is the monomial-basis
evaluation at the binary point of index `i`), whose equality table holds
`Σᵢ εᵢ·eq_{zᵢ}` on the hypercube, whose variable count is that of the
coefficients, and whose sum is `T₀ = Σᵢ εᵢ·yᵢ` (zero for no points). -/
theorem claim_c6 (coeffs : CoefficientList F)
    (points : List (MultilinearPoint F)) (rands evals : List F) (i x : ℕ)
    (hlen : coeffs.coeffs.length = 2 ^ coeffs.num_variables)
    (hpts : ∀ pt ∈ points, pt.coords.length = coeffs.num_variables)
    (hi : i < 2 ^ coeffs.num_variables) (hx : x < 2 ^ coeffs.num_variables) :
    (SumcheckSingle.new coeffs points rands evals).evaluation_of_p.evals =
      evalForm coeffs.num_variables coeffs.coeffs ∧
    (SumcheckSingle.new coeffs points rands evals).evaluation_of_p.evals.getD i 0 =
      coeffs.evaluate ⟨pointOfIndex coeffs.num_variables i⟩ ∧
    (SumcheckSingle.new coeffs points rands evals).evaluation_of_equality.evals.getD x 0 =
      ((points.zip rands).map (fun op => op.2 * eqWeight op.1.coords
        (bitsMSB coeffs.num_variables x))).sum ∧
    (SumcheckSingle.new coeffs points rands evals).num_variables =
      coeffs.num_variables ∧
    (SumcheckSingle.new coeffs points rands evals).sum =
      ((rands.zip evals).map (fun pe => pe.1 * pe.2)).sum := by
  refine ⟨rfl, ?_, ?_, rfl, zero_add _⟩
  · exact evalForm_getD coeffs.num_variables coeffs.coeffs hlen i hi
  · have hops : ∀ op ∈ points.zip rands, op.1.coords.length = coeffs.num_variables :=
      fun op hop => hpts op.1 (List.of_mem_zip hop).1
    have hzero : (SumcheckSingle.new coeffs points rands evals).evaluation_of_equality.evals =
        applyEquality (points.zip rands) (List.replicate (2 ^ coeffs.num_variables) 0) := rfl
    rw [hzero, applyEquality_getD coeffs.num_variables (points.zip rands) _
      (by simp) hops x hx, getD_replicate_zero, zero_add]

/-- Witness for C6 at a concrete one-variable coefficient list with one
evaluation point over `ZMod 101`. -/
theorem claim_c6_witness :
    (CoefficientList.coeffs (⟨[1, 2]⟩ : CoefficientList (ZMod 101))).length =
      2 ^ (⟨[1, 2]⟩ : CoefficientList (ZMod 101)).num_variables ∧
    (∀ pt ∈ [(⟨[3]⟩ : MultilinearPoint (ZMod 101))],
      pt.coords.length = (⟨[1, 2]⟩ : CoefficientList (ZMod 101)).num_variables) ∧
    1 < 2 ^ (⟨[1, 2]⟩ : CoefficientList (ZMod 101)).num_variables ∧
    0 < 2 ^ (⟨[1, 2]⟩ : CoefficientList (ZMod 101)).num_variables ∧
    ((SumcheckSingle.new (⟨[1, 2]⟩ : CoefficientList (ZMod 101)) [⟨[3]⟩] [4] [9]).evaluation_of_p.evals =
      evalForm (⟨[1, 2]⟩ : CoefficientList (ZMod 101)).num_variables [1, 2] ∧
    (SumcheckSingle.new (⟨[1, 2]⟩ : CoefficientList (ZMod 101)) [⟨[3]⟩] [4] [9]).evaluation_of_p.evals.getD 1 0 =
      CoefficientList.evaluate ⟨[1, 2]⟩
        ⟨pointOfIndex (⟨[1, 2]⟩ : CoefficientList (ZMod 101)).num_variables 1⟩ ∧
    (SumcheckSingle.new (⟨[1, 2]⟩ : CoefficientList (ZMod 101)) [⟨[3]⟩] [4] [9]).evaluation_of_equality.evals.getD 0 0 =
      (([(⟨[3]⟩ : MultilinearPoint (ZMod 101))].zip [(4 : ZMod 101)]).map
        (fun op => op.2 * eqWeight op.1.coords
          (bitsMSB (⟨[1, 2]⟩ : CoefficientList (ZMod 101)).num_variables 0))).sum ∧
    (SumcheckSingle.new (⟨[1, 2]⟩ : CoefficientList (ZMod 101)) [⟨[3]⟩] [4] [9]).num_variables =
      (⟨[1, 2]⟩ : CoefficientList (ZMod 101)).num_variables ∧
    (SumcheckSingle.new (⟨[1, 2]⟩ : CoefficientList (ZMod 101)) [⟨[3]⟩] [4] [9]).sum =
      (([(4 : ZMod 101)]).zip [(9 : ZMod 101)] |>.map (fun pe => pe.1 * pe.2)).sum) :=
  ⟨by simp [CoefficientList.num_variables, Nat.log2],
    by simp [CoefficientList.num_variables, Nat.log2],
    by simp [CoefficientList.num_variables, Nat.log2],
    by simp [CoefficientList.num_variables, Nat.log2],
    claim_c6 ⟨[1, 2]⟩ [⟨[3]⟩] [4] [9] 1 0
      (by simp [CoefficientList.num_variables, Nat.log2])
      (by simp [CoefficientList.num_variables, Nat.log2])
      (by simp [CoefficientList.num_variables, Nat.log2])
      (by simp [CoefficientList.num_variables, Nat.log2])⟩

/-- C7: the debug invariant `sum = ⟨evals_p, evals_w⟩` is preserved by
`add_new_equality` whenever each supplied evaluation is the multilinear
extension of the stored polynomial table at the corresponding point. -/
theorem claim_c7 (s : SumcheckSingle F)
    (points : List (MultilinearPoint F)) (rands evals : List F)
    (hl1 : points.length = rands.length) (hl2 : points.length = evals.length)
    (hp : s.evaluation_of_p.evals.length = 2 ^ s.num_variables)
    (hw : s.evaluation_of_equality.evals.length = 2 ^ s.num_variables)
    (hpts : ∀ pt ∈ points, pt.coords.length = s.num_variables)
    (hsum : s.sum = innerProd s.evaluation_of_p.evals s.evaluation_of_equality.evals)
    (hevals : ∀ j, j < points.length → evals.getD j 0 =
      ∑ y ∈ Finset.range (2 ^ s.num_variables),
        s.evaluation_of_p.evals.getD y 0 *
          eqWeight (points.getD j ⟨[]⟩).coords (bitsMSB s.num_variables y)) :
    (s.add_new_equality points rands evals).sum =
      innerProd (s.add_new_equality points rands evals).evaluation_of_p.evals
        (s.add_new_equality points rands evals).evaluation_of_equality.evals := by
  set n := s.num_variables with hn
  set p := s.evaluation_of_p.evals with hpdef
  set w := s.evaluation_of_equality.evals with hwdef
  set ops := points.zip rands with hops_def
  have hopslen : ops.length = points.length := by
    rw [hops_def, List.length_zip]; omega
  have hopsn : ∀ op ∈ ops, op.1.coords.length = n :=
    fun op hop => hpts op.1 (List.of_mem_zip hop).1
  have hLHS : (s.add_new_equality points rands evals).sum =
      s.sum + ((rands.zip evals).map (fun pe => pe.1 * pe.2)).sum := rfl
  have hRP : (s.add_new_equality points rands evals).evaluation_of_p.evals = p := rfl
  have hRW : (s.add_new_equality points rands evals).evaluation_of_equality.evals =
      applyEquality ops w := rfl
  rw [hLHS, hRP, hRW]
  have hwalen : (applyEquality ops w).length = 2 ^ n := by
    rw [applyEquality_length]; exact hw
  rw [innerProd_eq_sum p (applyEquality ops w) (2 ^ n) hp hwalen]
  have hterm : ∀ y ∈ Finset.range (2 ^ n),
      p.getD y 0 * (applyEquality ops w).getD y 0 =
        p.getD y 0 * w.getD y 0 +
          ∑ j ∈ Finset.range ops.length,
            (ops.getD j (⟨[]⟩, 0)).2 *
              (p.getD y 0 * eqWeight (ops.getD j (⟨[]⟩, 0)).1.coords (bitsMSB n y)) := by
    intro y hy
    rw [Finset.mem_range] at hy
    rw [applyEquality_getD n ops w hw hopsn y hy, mul_add,
      map_sum_getD ops (fun op => op.2 * eqWeight op.1.coords (bitsMSB n y)) (⟨[]⟩, 0),
      Finset.mul_sum]
    congr 1
    exact Finset.sum_congr rfl fun j hj => by ring
  rw [Finset.sum_congr rfl hterm, Finset.sum_add_distrib,
    ← innerProd_eq_sum p w (2 ^ n) hp hw, ← hsum, Finset.sum_comm]
  have hsecond : ∀ j ∈ Finset.range ops.length,
      (∑ y ∈ Finset.range (2 ^ n), (ops.getD j (⟨[]⟩, 0)).2 *
        (p.getD y 0 * eqWeight (ops.getD j (⟨[]⟩, 0)).1.coords (bitsMSB n y))) =
        rands.getD j 0 * evals.getD j 0 := by
    intro j hj
    rw [Finset.mem_range] at hj
    have hjp : j < points.length := by omega
    have hjr : j < rands.length := by omega
    rw [getD_zip points rands j ⟨[]⟩ 0 hjp hjr, ← Finset.mul_sum, hevals j hjp]
  rw [Finset.sum_congr rfl hsecond]
  have hzl : (rands.zip evals).length = ops.length := by
    rw [List.length_zip]; omega
  rw [map_sum_getD (rands.zip evals) (fun pe => pe.1 * pe.2) (0, 0), hzl]
  refine congrArg (s.sum + ·) (Finset.sum_congr rfl fun j hj => ?_)
  rw [Finset.mem_range] at hj
  rw [getD_zip rands evals j 0 0 (by omega) (by omega)]

/-- Witness for C7 at a concrete one-variable state over `ZMod 101` with
one new point whose evaluation is the multilinear extension of the stored
table. -/
theorem claim_c7_witness :
    ([(⟨[5]⟩ : MultilinearPoint (ZMod 101))].length = [(7 : ZMod 101)].length) ∧
    ([(⟨[5]⟩ : MultilinearPoint (ZMod 101))].length = [(7 : ZMod 101)].length) ∧
    exC7.evaluation_of_p.evals.length = 2 ^ exC7.num_variables ∧
    exC7.evaluation_of_equality.evals.length = 2 ^ exC7.num_variables ∧
    (∀ pt ∈ [(⟨[5]⟩ : MultilinearPoint (ZMod 101))],
      pt.coords.length = exC7.num_variables) ∧
    exC7.sum = innerProd exC7.evaluation_of_p.evals exC7.evaluation_of_equality.evals ∧
    (∀ j, j < [(⟨[5]⟩ : MultilinearPoint (ZMod 101))].length →
      ([(7 : ZMod 101)]).getD j 0 =
        ∑ y ∈ Finset.range (2 ^ exC7.num_variables),
          exC7.evaluation_of_p.evals.getD y 0 *
            eqWeight (([(⟨[5]⟩ : MultilinearPoint (ZMod 101))]).getD j ⟨[]⟩).coords
              (bitsMSB exC7.num_variables y)) ∧
    (exC7.add_new_equality [⟨[5]⟩] [7] [7]).sum =
      innerProd (exC7.add_new_equality [⟨[5]⟩] [7] [7]).evaluation_of_p.evals
        (exC7.add_new_equality [⟨[5]⟩] [7] [7]).evaluation_of_equality.evals :=
  ⟨by decide, by decide, by decide, by decide, by decide, by decide, by decide,
    claim_c7 exC7 [⟨[5]⟩] [7] [7] (by decide) (by decide) (by decide) (by decide)
      (by decide) (by decide) (by decide)⟩

/-- C1: for every state with `num_variables ≥ 1`,
`compute_sumcheck_polynomial` returns the evaluations at `X = 0, 1, 2` of
the quadratic `g(X) = a₀ + a₁X + a₂X²` with `a₀ = Σ_β p[2β]·w[2β]`,
`a₂ = Σ_β (p[2β+1]−p[2β])·(w[2β+1]−w[2β])` and `a₁ = sum − 2a₀ − a₂`. The
state is left unchanged by construction: the embedded function, like the
Rust method taking `&self`, does not produce a new state. -/
theorem claim_c1 (s : SumcheckSingle F) (h : 1 ≤ s.num_variables) :
    (s.compute_sumcheck_polynomial).evaluations =
      [quadCoeff0 s + (s.sum - 2 * quadCoeff0 s - quadCoeff2 s) * 0 +
          quadCoeff2 s * 0 ^ 2,
        quadCoeff0 s + (s.sum - 2 * quadCoeff0 s - quadCoeff2 s) * 1 +
          quadCoeff2 s * 1 ^ 2,
        quadCoeff0 s + (s.sum - 2 * quadCoeff0 s - quadCoeff2 s) * 2 +
          quadCoeff2 s * 2 ^ 2] := by
  simp only [SumcheckSingle.compute_sumcheck_polynomial, SumcheckPolynomial.new,
    List.cons.injEq, and_true]
  refine ⟨by ring, by ring, by ring⟩

/-- Witness for C1 at a concrete one-variable state over `ZMod 101`. -/
theorem claim_c1_witness :
    1 ≤ exC1.num_variables ∧
      (exC1.compute_sumcheck_polynomial).evaluations =
        [quadCoeff0 exC1 + (exC1.sum - 2 * quadCoeff0 exC1 - quadCoeff2 exC1) * 0 +
            quadCoeff2 exC1 * 0 ^ 2,
          quadCoeff0 exC1 + (exC1.sum - 2 * quadCoeff0 exC1 - quadCoeff2 exC1) * 1 +
            quadCoeff2 exC1 * 1 ^ 2,
          quadCoeff0 exC1 + (exC1.sum - 2 * quadCoeff0 exC1 - quadCoeff2 exC1) * 2 +
            quadCoeff2 exC1 * 2 ^ 2] :=
  ⟨by decide, claim_c1 exC1 (by decide)⟩

/-- C2: for every state with `num_variables ≥ 1` — reachable or not, and
without assuming the inner-product invariant — the emitted polynomial's
values at `X = 0` and `X = 1` add up to the state's current claimed sum. -/
theorem claim_c2 (s : SumcheckSingle F) (h : 1 ≤ s.num_variables) :
    (s.compute_sumcheck_polynomial).evaluations.getD 0 0 +
      (s.compute_sumcheck_polynomial).evaluations.getD 1 0 = s.sum :=
  compute_g01 s

/-- Witness for C2 at a concrete two-variable state over `ZMod 101`. -/
theorem claim_c2_witness :
    1 ≤ exC2.num_variables ∧
      (exC2.compute_sumcheck_polynomial).evaluations.getD 0 0 +
        (exC2.compute_sumcheck_polynomial).evaluations.getD 1 0 = exC2.sum :=
  ⟨by decide, claim_c2 exC2 (by decide)⟩

/-- C9: `EvaluationsList::new` succeeds exactly when the length is a power
of two (`len ≠ 0` and `len = 2^⌊log₂ len⌋`), fails for the empty vector,
and on success stores the vector unchanged with
`num_variables = log₂(len)`. -/
theorem claim_c9 (v : List F) :
    ((EvaluationsList.new v).isSome ↔
      v.length ≠ 0 ∧ 2 ^ Nat.log2 v.length = v.length) ∧
    (EvaluationsList.new v = none ∨
      EvaluationsList.new v = some ⟨v, Nat.log2 v.length⟩) ∧
    EvaluationsList.new ([] : List F) = none := by
  refine ⟨?_, ?_, by simp [EvaluationsList.new, isPowerOfTwo]⟩
  · by_cases hc : isPowerOfTwo v.length = true
    · simp only [EvaluationsList.new, hc, if_true, Option.isSome_some, true_iff]
      simpa [isPowerOfTwo, Bool.and_eq_true] using hc
    · simp only [EvaluationsList.new, hc, Bool.false_eq_true, if_false,
        Option.isSome_none, false_iff]
      intro hcontra
      exact hc (by simpa [isPowerOfTwo, Bool.and_eq_true] using hcontra)
  · by_cases hc : isPowerOfTwo v.length = true
    · exact Or.inr (by simp [EvaluationsList.new, hc])
    · exact Or.inl (by simp [EvaluationsList.new, hc])

/-- C10: the parallel variant of `eval_eq` (threshold 10, `rayon::join` on
the two disjoint buffer halves, modelled by running both children to
completion and concatenating the halves they own) computes the same buffer
as the sequential variant on every input of the specified shape. -/
theorem claim_c10 (z : List F) (out : List F) (s : F)
    (hlen : out.length = 2 ^ z.length) :
    eval_eq_par z out s = eval_eq z out s := by
  clear hlen
  induction z generalizing out s with
  | nil => cases out <;> rfl
  | cons x tail ih =>
    simp only [eval_eq_par, eval_eq]
    by_cases ht : tail.length > 10 <;> simp [ht, ih]

/-- Witness for C10 on a concrete two-coordinate input over `ZMod 101`. -/
theorem claim_c10_witness :
    ([(1 : ZMod 101), 2, 3, 4].length = 2 ^ ([(3 : ZMod 101), 5].length)) ∧
      eval_eq_par [(3 : ZMod 101), 5] [1, 2, 3, 4] 2 =
        eval_eq [(3 : ZMod 101), 5] [1, 2, 3, 4] 2 :=
  ⟨by decide, claim_c10 [3, 5] [1, 2, 3, 4] 2 (by decide)⟩

end ArkWhir
